import Mathlib

/-!
Verification of the langgraph-prac repository.

The repository's own code is the two notebooks `hitl.ipynb` and
`chatbot.ipynb`.  The tool bodies `get_stock_price` and `buy_stocks`
(hitl.ipynb) are embedded below directly from the source.  The
orchestration engine (graph execution, `MemorySaver` checkpointing,
`interrupt`/`Command(resume=...)`) lives in the external langgraph
library, not in this repository; it is modelled from the specification's
reconstruction (spec sections 3, 4.1-4.3).

Numeric model: Python floats are embedded as exact rationals.  Every
numeric literal appearing in the notebooks (200.3, 100.4, 150.0, 87.6,
0.0, 2003.0) has an exact short decimal form, on which CPython's float
formatting coincides with exact decimal rendering, so the printers below
reproduce the observed strings exactly.  The printers work directly on
the numerator/denominator of the reduced rational.
-/

namespace LangGraphPrac

/-- Round `num / den` (with `den > 0`) to the nearest integer, ties to
even — the rounding CPython's fixed-point float formatting applies. -/
def roundHalfEven (num : ℤ) (den : ℕ) : ℤ :=
  let f : ℤ := Int.fdiv num (den : ℤ)
  let r : ℤ := num - f * (den : ℤ)
  if 2 * r < (den : ℤ) then f
  else if (den : ℤ) < 2 * r then f + 1
  else if f % 2 = 0 then f else f + 1

/-- Render a natural number with at least two digits (for the cents part). -/
def twoDigits (n : ℕ) : String :=
  (if n < 10 then "0" else "") ++ toString n

/-- Models the Python format specifier `:.2f` on a float value:
fixed-point with exactly two digits after the decimal point. -/
def formatFixed2 (q : ℚ) : String :=
  let n : ℤ := roundHalfEven (100 * q.num) q.den
  (if n < 0 then "-" else "")
    ++ toString (n.natAbs / 100) ++ "." ++ twoDigits (n.natAbs % 100)

/-- Left-pad the decimal digits of `n` with zeros to width `k`. -/
def padZeros (k : ℕ) (n : ℕ) : String :=
  let s := toString n
  String.mk (List.replicate (k - s.length) '0') ++ s

/-- Models CPython `str()` on a float value (used by the f-string
`{total_price}` in `buy_stocks`): an integral value renders as `"X.0"`,
a non-integral value renders as its shortest exact decimal expansion.
Faithful for every float whose shortest round-trip repr is its exact
short decimal form, which holds for all values the notebooks produce. -/
def floatStr (q : ℚ) : String :=
  let sign := if q.num < 0 then "-" else ""
  let n := q.num.natAbs
  let d := q.den
  if d = 1 then
    sign ++ toString n ++ ".0"
  else
    let k := (((List.range 18).find? fun k => (n * 10 ^ k) % d = 0).getD 17)
    let digits := n * 10 ^ k / d
    sign ++ toString (digits / 10 ^ k) ++ "." ++ padZeros k (digits % 10 ^ k)

/-- The fixed in-code price table of `get_stock_price` (src/hitl.ipynb):
`{"MSFT": 200.3, "AAPL": 100.4, "AMZN": 150.0, "RIL": 87.6}`.
The prices are written as exact rationals (200.3 = 2003/10, etc.). -/
def stockTable : List (String × ℚ) :=
  [("MSFT", mkRat 2003 10), ("AAPL", mkRat 1004 10),
   ("AMZN", mkRat 150 1), ("RIL", mkRat 876 10)]

/-- Embedding of `get_stock_price` (src/hitl.ipynb): dictionary lookup
with default `0.0` via `.get(symbol, 0.0)`. -/
def get_stock_price (symbol : String) : ℚ :=
  (stockTable.lookup symbol).getD 0

/-- Result of one tool invocation: either a returned value or a raised
interrupt request carrying the payload shown to the human. -/
inductive ToolResult where
  | value (s : String)
  | interruptReq (payload : String)
deriving DecidableEq, Repr

/-- Embedding of `buy_stocks` (src/hitl.ipynb).  The langgraph `interrupt(msg)` call is
embedded by threading the optional resume value: on first execution
(`resumeValue = none`) the call raises, suspending with the formatted
payload; on re-execution after `Command(resume=decision)` it returns the
decision, and the tool branches on `decision == "yes"`. -/
def buy_stocks (symbol : String) (quantity : ℤ) (total_price : ℚ)
    (resumeValue : Option String) : ToolResult :=
  match resumeValue with
  | none =>
      .interruptReq ("Approve buying " ++ toString quantity ++ " " ++ symbol
        ++ " stocks for $" ++ formatFixed2 total_price ++ "?")
  | some decision =>
      if decision = "yes" then
        .value ("You bought " ++ toString quantity ++ " shares of " ++ symbol
          ++ " for a total price of " ++ floatStr total_price)
      else
        .value "Buying declined."

/-!
The resumable, checkpointed step-execution engine.  The langgraph runtime
that implements it (StateGraph execution, MemorySaver, interrupt/Command)
is an external library and is not part of this repository's sources, so
the engine is modelled from the specification (spec sections 3, 4.1-4.3).
Session state is a list of message records (`add_messages` accumulates by
appending); a step is a stateless transform producing a state delta or an
interrupt request, and receives the externally supplied resume decision
when re-entered after an interrupt.
-/

/-- Modelled from the spec: the outcome of one step (spec section 3,
"Step — pure function of (state) → (state delta) XOR (interrupt
request)").  The langgraph node/ToolNode machinery realising this is not
in the repository. -/
inductive StepResult (α : Type) where
  | delta (d : List α)
  | interrupt (payload : String)

/-- Modelled from the spec: a named unit of work (spec section 3).  `run`
receives the state snapshot and, when re-entered after an interrupt, the
resume decision (spec section 4.2). -/
structure Step (α : Type) where
  run : List α → Option String → StepResult α

/-- Modelled from the spec: the observable outcome of driving the step
sequence — either completion with the final state, or suspension carrying
the pre-step state, the remaining steps (the interrupted step first), and
the interrupt payload (spec section 4.3). -/
inductive ExecResult (α : Type) where
  | completed (final : List α)
  | interrupted (st : List α) (remaining : List (Step α)) (payload : String)

/-- Modelled from the spec: drive the step sequence in order (spec
section 4.3, transition 1).  A delta is appended into the state
(`add_messages` accumulation); an interrupt stops execution at that step.
Only the first step executed may consume the resume decision `r`;
subsequent steps run fresh. -/
def execList {α : Type} : List (Step α) → List α → Option String → ExecResult α
  | [], st, _ => .completed st
  | S :: rest, st, r =>
      match S.run st r with
      | .delta d => execList rest (st ++ d) none
      | .interrupt p => .interrupted st (S :: rest) p

/-- Modelled from the spec: session status (spec section 3).  FRESH is
represented by the absence of a checkpoint. -/
inductive Status where
  | running
  | interrupted
  | completed
deriving DecidableEq, Repr

/-- Modelled from the spec: a durable snapshot of a session at a step
boundary, keyed by thread id in the store (spec section 3,
"Checkpoint"). -/
structure Checkpoint (α : Type) where
  state : List α
  status : Status
  pendingStep : Option ℕ
  interruptPayload : Option String

/-- Modelled from the spec: the Checkpoint Store, keyed by thread id
(spec section 4.1); realised in the source by langgraph's `MemorySaver`,
which is not in the repository. -/
abbrev Store (α : Type) := List (String × Checkpoint α)

/-- Modelled from the spec: `load(thread_id)` returns the latest
persisted checkpoint, or none for a fresh session (spec section 4.1). -/
def load {α : Type} (store : Store α) (tid : String) : Option (Checkpoint α) :=
  store.lookup tid

/-- Modelled from the spec: `save(thread_id, checkpoint)` atomically
replaces the prior checkpoint for the thread (spec section 4.1). -/
def save {α : Type} (store : Store α) (tid : String) (cp : Checkpoint α) :
    Store α :=
  (tid, cp) :: store.filter fun e => !(e.1 == tid)

/-- Modelled from the spec: error raised when `resume` is called on a
session that is not INTERRUPTED (spec sections 4.3 and 7). -/
inductive ResumeErr where
  | noPendingInterrupt
deriving DecidableEq, Repr

/-- The state currently persisted for a thread (empty for a fresh one). -/
def sessionState {α : Type} (store : Store α) (tid : String) : List α :=
  (load store tid).elim [] Checkpoint.state

/-- Modelled from the spec: `invoke(thread_id, new_input)` (spec section
4.3, transition 1).  Loads the checkpoint (fresh state if NotFound),
appends the new input, runs the step sequence from the beginning of a new
cycle, and persists either the COMPLETED final state or the INTERRUPTED
state with the pending step index and interrupt payload. -/
def invoke {α : Type} (steps : List (Step α)) (store : Store α)
    (tid : String) (input : α) : Store α × ExecResult α :=
  let st0 := sessionState store tid ++ [input]
  match execList steps st0 none with
  | .completed final =>
      (save store tid ⟨final, .completed, none, none⟩, .completed final)
  | .interrupted st rem p =>
      (save store tid ⟨st, .interrupted, some (steps.length - rem.length), some p⟩,
       .interrupted st rem p)

/-- Modelled from the spec: `resume(thread_id, resume_command)` (spec
section 4.3, transition 2).  Fails with `NoPendingInterrupt` unless the
loaded checkpoint is INTERRUPTED; otherwise re-enters the pending step
with the decision and continues the remaining sequence.  On failure the
store is returned unchanged. -/
def resume {α : Type} (steps : List (Step α)) (store : Store α)
    (tid : String) (decision : String) :
    Store α × Except ResumeErr (ExecResult α) :=
  match load store tid with
  | none => (store, .error .noPendingInterrupt)
  | some cp =>
      match cp.status, cp.pendingStep with
      | .interrupted, some idx =>
          match execList (steps.drop idx) cp.state (some decision) with
          | .completed final =>
              (save store tid ⟨final, .completed, none, none⟩,
               .ok (.completed final))
          | .interrupted st rem p =>
              (save store tid
                 ⟨st, .interrupted, some (steps.length - rem.length), some p⟩,
               .ok (.interrupted st rem p))
      | _, _ => (store, .error .noPendingInterrupt)

/-- A step that never interrupts and instead behaves as the given step
would behave when handed the decision `d` directly — the counterfactual
"S received the decision directly" of the resume-correctness property. -/
def directStep {α : Type} (S : Step α) (d : String) : Step α :=
  ⟨fun st _ => S.run st (some d)⟩

/-- The chatbot node of src/chatbot.ipynb and src/hitl.ipynb: invoke the
LLM (an external black box, passed in as a function) on the full
accumulated message history and append its reply. -/
def chatStep {α : Type} (llm : List α → α) : Step α :=
  ⟨fun st _ => .delta [llm st]⟩

/-- The ToolNode executing the `buy_stocks` tool call of src/hitl.ipynb.
The call arguments come from the LLM's tool-call message (black box); the
scenario fixes them to symbol "MSFT", quantity 10, total_price 2003.0
(= 10 × 200.3).  A raised interrupt suspends the step; a returned value
becomes a tool message appended to the state. -/
def buyNode : Step String :=
  ⟨fun _ r =>
    match buy_stocks "MSFT" 10 (mkRat 2003 1) r with
    | .value s => .delta [s]
    | .interruptReq p => .interrupt p⟩

/-- The interrupt payload of an execution outcome, if it suspended. -/
def interruptPayloadOf {α : Type} : ExecResult α → Option String
  | .completed _ => none
  | .interrupted _ _ p => some p

/-- The state carried by an execution outcome. -/
def execState {α : Type} : ExecResult α → List α
  | .completed final => final
  | .interrupted st _ _ => st

/-- Whether an execution outcome is a completion. -/
def isCompleted {α : Type} : ExecResult α → Bool
  | .completed _ => true
  | .interrupted _ _ _ => false

/-- The store after the hitl.ipynb buy request: invoking `buy_thread`
with the buy instruction, which suspends at the approval interrupt. -/
def buyStore1 : Store String :=
  (invoke [buyNode] [] "buy_thread" "Buy 10 MSFT stocks at current price.").1

/-! Sanity checks on the concrete embedding. -/

example : (200.3 : ℚ) = mkRat 2003 10 := by norm_num [mkRat, Rat.normalize]
example : formatFixed2 (mkRat 2003 1) = "2003.00" := by decide
example : floatStr (mkRat 2003 1) = "2003.0" := by decide
example : floatStr (mkRat 2003 10) = "200.3" := by decide

/-! Supporting lemmas about the engine. -/

/-- Saving and then loading the same thread id yields the saved
checkpoint (helper shared by the controller proofs). -/
theorem lookup_save {α : Type} (store : Store α) (tid : String)
    (cp : Checkpoint α) : load (save store tid cp) tid = some cp := by
  simp [load, save, List.lookup]

/-- The state persisted after a save is the saved checkpoint's state. -/
theorem sessionState_save {α : Type} (store : Store α) (tid : String)
    (cp : Checkpoint α) : sessionState (save store tid cp) tid = cp.state := by
  unfold sessionState
  rw [lookup_save]
  rfl

/-- If a prefix of the step sequence runs to completion, executing the
whole sequence continues from the prefix's final state. -/
theorem execList_append_completed {α : Type} (pre l : List (Step α))
    (st0 st : List α) (h : execList pre st0 none = .completed st) :
    execList (pre ++ l) st0 none = execList l st none := by
  induction pre generalizing st0 with
  | nil =>
      simp only [execList] at h
      injection h with h
      subst h
      simp
  | cons S pre ih =>
      cases hru : S.run st0 none with
      | delta d =>
          simp only [execList, hru] at h
          simp only [List.cons_append, execList, hru]
          exact ih _ h
      | interrupt p =>
          simp only [execList, hru] at h
          cases h

/-- An interrupted execution decomposes: the steps before the pending one
ran to completion, reaching the persisted state, and the pending step
raised the interrupt with the persisted payload. -/
theorem execList_decomp {α : Type} (steps : List (Step α)) (st0 st : List α)
    (rem : List (Step α)) (p : String)
    (h : execList steps st0 none = .interrupted st rem p) :
    ∃ pre, steps = pre ++ rem ∧ execList pre st0 none = .completed st ∧
      ∃ S rest, rem = S :: rest ∧ S.run st none = .interrupt p := by
  induction steps generalizing st0 with
  | nil =>
      simp only [execList] at h
      cases h
  | cons S steps ih =>
      cases hru : S.run st0 none with
      | delta d =>
          simp only [execList, hru] at h
          obtain ⟨pre, rfl, hpre, hS⟩ := ih _ h
          refine ⟨S :: pre, rfl, ?_, hS⟩
          simp only [execList, hru]
          exact hpre
      | interrupt q =>
          simp only [execList, hru] at h
          injection h with h1 h2 h3
          subst h1
          subst h2
          subst h3
          exact ⟨[], rfl, rfl, S, steps, rfl, hru⟩

/-- Execution only ever appends to the state it was started from. -/
theorem execState_extends {α : Type} (steps : List (Step α)) (st0 : List α)
    (r : Option String) : ∃ t, execState (execList steps st0 r) = st0 ++ t := by
  induction steps generalizing st0 r with
  | nil => exact ⟨[], by simp [execList, execState]⟩
  | cons S steps ih =>
      cases hru : S.run st0 r with
      | delta d =>
          obtain ⟨t, ht⟩ := ih (st0 ++ d) none
          refine ⟨d ++ t, ?_⟩
          simp only [execList, hru]
          rw [ht, List.append_assoc]
      | interrupt p =>
          exact ⟨[], by simp [execList, hru, execState]⟩

/-! Claim theorems. -/

/-- C3: invoking `buy_stocks` for quantity 10 of symbol "MSFT" at total
price 2003.0 suspends with the interrupt payload exactly
"Approve buying 10 MSFT stocks for $2003.00?" — the total price rendered
with two decimal places and a leading dollar sign; and the buy_thread
session invoked with the buy instruction suspends with that payload. -/
theorem interrupt_payload_format :
    buy_stocks "MSFT" 10 (2003.0 : ℚ) none
        = .interruptReq "Approve buying 10 MSFT stocks for $2003.00?"
      ∧ interruptPayloadOf (invoke [buyNode] [] "buy_thread"
            "Buy 10 MSFT stocks at current price.").2
        = some "Approve buying 10 MSFT stocks for $2003.00?" := by
  have h : (2003.0 : ℚ) = mkRat 2003 1 := by norm_num [mkRat, Rat.normalize]
  exact ⟨by rw [h]; decide, by decide⟩

/-- C2: resuming the interrupted buy_thread session with decision "yes"
completes with final history ending in "You bought 10 shares of MSFT for
a total price of 2003.0"; resuming an alternate run of the same
interrupted session with decision "no" completes with final history
ending in "Buying declined.". -/
theorem buy_decision_branching :
    ((resume [buyNode] buyStore1 "buy_thread" "yes").2.toOption.map execState
        = some ["Buy 10 MSFT stocks at current price.",
            "You bought 10 shares of MSFT for a total price of 2003.0"])
      ∧ ((resume [buyNode] buyStore1 "buy_thread" "yes").2.toOption.map
            isCompleted = some true)
      ∧ ((resume [buyNode] buyStore1 "buy_thread" "no").2.toOption.map execState
        = some ["Buy 10 MSFT stocks at current price.", "Buying declined."])
      ∧ ((resume [buyNode] buyStore1 "buy_thread" "no").2.toOption.map
            isCompleted = some true) :=
  ⟨by decide, by decide, by decide, by decide⟩

/-- C4: `get_stock_price` applied to "MSFT" returns 200.3, sourced from
the fixed in-code lookup table. -/
theorem get_stock_price_msft :
    get_stock_price "MSFT" = 200.3
      ∧ stockTable.lookup "MSFT" = some (200.3 : ℚ) := by
  have h : (200.3 : ℚ) = mkRat 2003 10 := by norm_num [mkRat, Rat.normalize]
  rw [h]
  exact ⟨by decide, by decide⟩

/-- C9: for every stock symbol not present in the fixed lookup table
(not one of "MSFT", "AAPL", "AMZN", "RIL"), `get_stock_price` returns the
default 0.0 rather than failing. -/
theorem get_stock_price_default (symbol : String)
    (h : symbol ∉ (["MSFT", "AAPL", "AMZN", "RIL"] : List String)) :
    get_stock_price symbol = 0 := by
  simp only [List.mem_cons, List.not_mem_nil, or_false, not_or] at h
  obtain ⟨h1, h2, h3, h4⟩ := h
  simp [get_stock_price, stockTable, List.lookup,
    beq_eq_false_iff_ne.mpr h1, beq_eq_false_iff_ne.mpr h2,
    beq_eq_false_iff_ne.mpr h3, beq_eq_false_iff_ne.mpr h4]

/-- Witness for C9 at the concrete out-of-table symbol "GOOG". -/
theorem get_stock_price_default_witness :
    "GOOG" ∉ (["MSFT", "AAPL", "AMZN", "RIL"] : List String)
      ∧ get_stock_price "GOOG" = 0 :=
  ⟨by decide, get_stock_price_default "GOOG" (by decide)⟩

/-- C10: for every resume decision value other than the exact string
"yes" (including "Yes", "y", the empty string), `buy_stocks` returns
"Buying declined."; the purchase message is produced exactly when the
decision equals "yes". -/
theorem buy_requires_exact_yes (symbol : String) (quantity : ℤ)
    (total_price : ℚ) (decision : String) (h : decision ≠ "yes") :
    buy_stocks symbol quantity total_price (some decision)
        = .value "Buying declined."
      ∧ buy_stocks symbol quantity total_price (some "yes")
        = .value ("You bought " ++ toString quantity ++ " shares of " ++ symbol
            ++ " for a total price of " ++ floatStr total_price) := by
  constructor
  · simp [buy_stocks, h]
  · simp [buy_stocks]

/-- Witness for C10 at the near-miss decision "Yes". -/
theorem buy_requires_exact_yes_witness :
    ("Yes" : String) ≠ "yes"
      ∧ (buy_stocks "MSFT" 10 (mkRat 2003 1) (some "Yes")
            = .value "Buying declined."
          ∧ buy_stocks "MSFT" 10 (mkRat 2003 1) (some "yes")
            = .value ("You bought " ++ toString (10 : ℤ) ++ " shares of "
                ++ "MSFT" ++ " for a total price of " ++ floatStr (mkRat 2003 1))) :=
  ⟨by decide, buy_requires_exact_yes "MSFT" 10 (mkRat 2003 1) "Yes" (by decide)⟩

/-- C8: for every thread id and checkpoint, `save` followed by `load`
returns a checkpoint equal to the saved one. -/
theorem save_load_roundtrip {α : Type} (store : Store α) (tid : String)
    (cp : Checkpoint α) : load (save store tid cp) tid = some cp := by
  simp [load, save, List.lookup]

/-- C7: calling `resume` on a thread whose checkpoint is COMPLETED, or on
a fresh thread with no checkpoint at all, fails with `NoPendingInterrupt`
and leaves the store (hence the session's state) unchanged. -/
theorem resume_rejected {α : Type} (steps : List (Step α)) (store : Store α)
    (tid : String) (decision : String)
    (h : load store tid = none
        ∨ ∃ cp, load store tid = some cp ∧ cp.status = .completed) :
    resume steps store tid decision = (store, .error .noPendingInterrupt) := by
  rcases h with h | ⟨cp, hcp, hst⟩
  · simp [resume, h]
  · obtain ⟨st, status, pend, ip⟩ := cp
    cases hst
    simp [resume, hcp]

/-- Witness for C7 on the empty store, where the thread is fresh. -/
theorem resume_rejected_witness :
    (load ([] : Store String) "buy_thread" = none
        ∨ ∃ cp, load ([] : Store String) "buy_thread" = some cp
            ∧ cp.status = .completed)
      ∧ resume ([] : List (Step String)) [] "buy_thread" "yes"
        = ([], .error .noPendingInterrupt) :=
  ⟨Or.inl rfl, resume_rejected [] [] "buy_thread" "yes" (Or.inl rfl)⟩

/-- C5: every engine operation only appends to a session's persisted
message sequence — both `invoke` and `resume` leave the previously
persisted state as a prefix of the new one, never truncating or
reordering it. -/
theorem state_append_only {α : Type} (steps : List (Step α)) (store : Store α)
    (tid : String) (input : α) (decision : String) :
    (∃ t, sessionState (invoke steps store tid input).1 tid
        = sessionState store tid ++ t)
      ∧ (∃ t, sessionState (resume steps store tid decision).1 tid
        = sessionState store tid ++ t) := by
  constructor
  · obtain ⟨t, ht⟩ :=
      execState_extends steps (sessionState store tid ++ [input]) none
    cases hex : execList steps (sessionState store tid ++ [input]) none with
    | completed final =>
        rw [hex] at ht
        refine ⟨[input] ++ t, ?_⟩
        simp only [invoke, hex, sessionState_save]
        simpa [execState, List.append_assoc] using ht
    | interrupted st rem p =>
        rw [hex] at ht
        refine ⟨[input] ++ t, ?_⟩
        simp only [invoke, hex, sessionState_save]
        simpa [execState, List.append_assoc] using ht
  · cases hload : load store tid with
    | none => exact ⟨[], by simp [resume, hload]⟩
    | some cp =>
        have hstate : sessionState store tid = cp.state := by
          simp [sessionState, hload]
        obtain ⟨cst, status, pend, ip⟩ := cp
        cases status with
        | interrupted =>
            cases pend with
            | none => exact ⟨[], by simp [resume, hload]⟩
            | some idx =>
                obtain ⟨t, ht⟩ :=
                  execState_extends (steps.drop idx) cst (some decision)
                cases hex : execList (steps.drop idx) cst (some decision) with
                | completed final =>
                    rw [hex] at ht
                    refine ⟨t, ?_⟩
                    simp only [resume, hload, hex, sessionState_save]
                    rw [hstate]
                    simpa [execState] using ht
                | interrupted st rem p =>
                    rw [hex] at ht
                    refine ⟨t, ?_⟩
                    simp only [resume, hload, hex, sessionState_save]
                    rw [hstate]
                    simpa [execState] using ht
        | running => exact ⟨[], by simp [resume, hload]⟩
        | completed => exact ⟨[], by simp [resume, hload]⟩

/-- C6: invoking a session whose prior run ended COMPLETED appends the
new input to the existing history and begins a new step cycle, so the
assistant reply of the new turn is computed by the LLM from the entire
accumulated history (all prior exchanges plus the new input), and the
persisted state grows to include it. -/
theorem multi_turn_accumulation {α : Type} (llm : List α → α) (store : Store α)
    (tid : String) (hist : List α) (input : α) :
    (invoke [chatStep llm] (save store tid ⟨hist, .completed, none, none⟩)
          tid input).2
        = .completed (hist ++ [input] ++ [llm (hist ++ [input])])
      ∧ sessionState (invoke [chatStep llm]
            (save store tid ⟨hist, .completed, none, none⟩) tid input).1 tid
        = hist ++ [input] ++ [llm (hist ++ [input])] := by
  constructor
  · simp [invoke, sessionState_save, execList, chatStep]
  · simp [invoke, sessionState_save, execList, chatStep]

/-- C1: resume correctness.  If invoking a session suspends at a step `S`
(the interrupted step heads the remaining sequence) and `S`, handed a
decision directly, deterministically produces a delta, then resuming the
persisted session with that decision re-executes `S` (the outcome
continues from `S`'s own delta, not past it) and yields exactly the same
final outcome as a run in which `S` never interrupted and received the
decision directly (the same step sequence with `S` replaced by
`directStep S d`). -/
theorem resume_correctness {α : Type} (steps : List (Step α))
    (store : Store α) (tid : String) (input : α) (st : List α) (S : Step α)
    (rest : List (Step α)) (p : String) (d : String) (δ : List α)
    (hinv : (invoke steps store tid input).2 = .interrupted st (S :: rest) p)
    (hS : S.run st (some d) = .delta δ) :
    ∃ pre, steps = pre ++ S :: rest ∧
      (resume steps (invoke steps store tid input).1 tid d).2
          = .ok (execList rest (st ++ δ) none)
        ∧ (invoke (pre ++ directStep S d :: rest) store tid input).2
          = execList rest (st ++ δ) none := by
  have hrun : execList steps (sessionState store tid ++ [input]) none
      = .interrupted st (S :: rest) p := by
    cases hex : execList steps (sessionState store tid ++ [input]) none with
    | completed final =>
        simp only [invoke, hex] at hinv
        cases hinv
    | interrupted st' rem' p' =>
        simp only [invoke, hex] at hinv
        exact hinv
  obtain ⟨pre, hsteps, hpre, S', rest', hrem, hint⟩ :=
    execList_decomp steps _ st (S :: rest) p hrun
  subst hsteps
  refine ⟨pre, rfl, ?_, ?_⟩
  · -- the resume path re-enters S with the decision
    have hidx : (pre ++ S :: rest).length - (S :: rest).length = pre.length := by
      simp
    have hdrop : (pre ++ S :: rest).drop pre.length = S :: rest :=
      List.drop_left pre (S :: rest)
    simp only [invoke, hrun, hidx]
    cases hres : execList rest (st ++ δ) none with
    | completed final =>
        simp [resume, lookup_save, hdrop, execList, hS, hres]
    | interrupted st2 rem2 p2 =>
        simp [resume, lookup_save, hdrop, execList, hS, hres]
  · -- the counterfactual run takes the same prefix, then S's delta
    have hpre' :
        execList (pre ++ directStep S d :: rest)
            (sessionState store tid ++ [input]) none
          = execList (directStep S d :: rest) st none :=
      execList_append_completed pre (directStep S d :: rest) _ st hpre
    have hstep : execList (directStep S d :: rest) st none
        = execList rest (st ++ δ) none := by
      simp [execList, directStep, hS]
    cases hres : execList rest (st ++ δ) none with
    | completed final =>
        simp only [invoke, hpre', hstep, hres]
    | interrupted st2 rem2 p2 =>
        simp only [invoke, hpre', hstep, hres]

/-- Witness for C1 on the concrete hitl buy scenario: the buy step of
src/hitl.ipynb interrupts on first execution and, resumed with "yes",
produces the purchase message. -/
theorem resume_correctness_witness :
    ((invoke [buyNode] [] "buy_thread"
          "Buy 10 MSFT stocks at current price.").2
        = .interrupted ["Buy 10 MSFT stocks at current price."] [buyNode]
            "Approve buying 10 MSFT stocks for $2003.00?")
      ∧ (buyNode.run ["Buy 10 MSFT stocks at current price."] (some "yes")
        = .delta ["You bought 10 shares of MSFT for a total price of 2003.0"])
      ∧ ∃ pre, ([buyNode] : List (Step String)) = pre ++ buyNode :: [] ∧
          (resume [buyNode]
              (invoke [buyNode] [] "buy_thread"
                "Buy 10 MSFT stocks at current price.").1
              "buy_thread" "yes").2
            = .ok (execList []
                (["Buy 10 MSFT stocks at current price."]
                  ++ ["You bought 10 shares of MSFT for a total price of 2003.0"])
                none)
          ∧ (invoke (pre ++ directStep buyNode "yes" :: []) [] "buy_thread"
                "Buy 10 MSFT stocks at current price.").2
            = execList []
                (["Buy 10 MSFT stocks at current price."]
                  ++ ["You bought 10 shares of MSFT for a total price of 2003.0"])
                none :=
  ⟨rfl, rfl,
    resume_correctness [buyNode] [] "buy_thread"
      "Buy 10 MSFT stocks at current price."
      ["Buy 10 MSFT stocks at current price."] buyNode [] _ "yes"
      ["You bought 10 shares of MSFT for a total price of 2003.0"] rfl rfl⟩

end LangGraphPrac
